import Mathlib

/-!
Verification of the generational-index entity allocator and component store
(`src/lib.rs`): `Entity`, `EntityManager` (free-list slot reuse with
generation counters) and `Component` (growable dense value store).

The embedding is shallow: Rust `Vec` becomes `List`, `usize` becomes `Nat`
(generation overflow is declared out of scope by the design notes), and an
operation that can panic on out-of-bounds indexing returns `Option`
(`none` = panic).  The `PhantomData` domain tag has no runtime content and
is dropped.
-/

namespace ECS

/-- Handle type `Entity<T>` from the source: a slot index and a generation. -/
structure Entity where
  index : Nat
  generation : Nat
deriving DecidableEq

/-- `EntityManager<T>` from the source: parallel tables `free_entities`
(free-list links) and `generations`, plus the free-list head `first_free`. -/
structure EntityManager where
  free_entities : List (Option Nat)
  generations : List Nat
  first_free : Option Nat
deriving DecidableEq

/-- `EntityManager::new`: one slot, generation 0, already on the free list. -/
def EntityManager.new : EntityManager :=
  ⟨[none], [0], some 0⟩

/-- `EntityManager::is_alive`: `e.generation == self.generations[e.index]`.
Rust indexing panics when `e.index` is out of bounds; that is `none` here. -/
def EntityManager.is_alive? (m : EntityManager) (e : Entity) : Option Bool :=
  (m.generations.get? e.index).map (fun g => e.generation == g)

/-- `EntityManager::allocate`: pop the free-list head if there is one
(leaving the popped slot's link entry stale), otherwise append a fresh slot
at generation 0.  Returns the new state and the issued handle.  The popped
branch indexes `free_entities[index]` and `generations[index]`, which would
panic (`none`) if the head were out of bounds. -/
def EntityManager.allocate? (m : EntityManager) : Option (EntityManager × Entity) :=
  match m.first_free with
  | some index =>
    match m.free_entities.get? index, m.generations.get? index with
    | some link, some g =>
      some (⟨m.free_entities, m.generations, link⟩, ⟨index, g⟩)
    | some _, none => none
    | none, _ => none
  | none =>
    some (⟨m.free_entities ++ [none], m.generations ++ [0], none⟩,
      ⟨m.free_entities.length, 0⟩)

/-- `EntityManager::deallocate`: if the handle is alive, push its slot onto
the free list and bump the generation; otherwise do nothing.  The alive
branch writes `free_entities[index]`, which would panic (`none`) if that
table were too short. -/
def EntityManager.deallocate? (m : EntityManager) (e : Entity) : Option EntityManager :=
  match m.is_alive? e with
  | none => none
  | some false => some m
  | some true =>
    if e.index < m.free_entities.length then
      some ⟨m.free_entities.set e.index m.first_free,
        m.generations.set e.index (m.generations.getD e.index 0 + 1),
        some e.index⟩
    else none

/-- `Component<V, T>` from the source: a growable dense array of values. -/
structure Component (V : Type) where
  values : List V

/-- `Component::new`: empty store. -/
def Component.new (V : Type) : Component V :=
  ⟨[]⟩

/-- `Component::resize`: push default values until the length reaches
`new_len` (no-op when already long enough). -/
def Component.resize {V : Type} [Inhabited V] (c : Component V) (new_len : Nat) :
    Component V :=
  if c.values.length < new_len then
    ⟨c.values ++ List.replicate (new_len - c.values.length) default⟩
  else c

/-- `Component::set`: grow to cover `e.index`, then overwrite that entry. -/
def Component.set {V : Type} [Inhabited V] (c : Component V) (e : Entity) (v : V) :
    Component V :=
  ⟨(c.resize (e.index + 1)).values.set e.index v⟩

/-- `Component::get`: plain indexed read, panics (`none`) out of bounds. -/
def Component.get? {V : Type} (c : Component V) (e : Entity) : Option V :=
  c.values.get? e.index

/-- `Component::get_mut`: same bounds behaviour as `get`; its read value. -/
def Component.get_mut? {V : Type} (c : Component V) (e : Entity) : Option V :=
  c.values.get? e.index

/-- An allocator call: `allocate` or `deallocate` with a given handle. -/
inductive Op where
  | alloc : Op
  | dealloc : Entity → Op
deriving DecidableEq

/-- Run a sequence of allocator calls, collecting every handle returned by
`allocate` (in order) and propagating panics. -/
def runOps : EntityManager × List Entity → List Op → Option (EntityManager × List Entity)
  | st, [] => some st
  | (m, acc), Op.alloc :: ops =>
    match m.allocate? with
    | some (m', e) => runOps (m', acc ++ [e]) ops
    | none => none
  | (m, acc), Op.dealloc e :: ops =>
    match m.deallocate? e with
    | some m' => runOps (m', acc) ops
    | none => none

/-- A combined call against an allocator and one value store: the two
allocator calls plus `Component::set`. -/
inductive WOp (V : Type) where
  | alloc : WOp V
  | dealloc : Entity → WOp V
  | wset : Entity → V → WOp V

/-- Run a sequence of combined allocator/store calls. -/
def wrun {V : Type} [Inhabited V] :
    EntityManager × Component V → List (WOp V) → Option (EntityManager × Component V)
  | st, [] => some st
  | (m, s), WOp.alloc :: ops =>
    match m.allocate? with
    | some (m', _) => wrun (m', s) ops
    | none => none
  | (m, s), WOp.dealloc e :: ops =>
    match m.deallocate? e with
    | some m' => wrun (m', s) ops
    | none => none
  | (m, s), WOp.wset e v :: ops => wrun (m, s.set e v) ops

/-- States reachable from `m0` by successful `allocate`/`deallocate` calls
(with arbitrary, possibly forged, handles passed to `deallocate`). -/
inductive ReachFrom : EntityManager → EntityManager → Prop where
  | refl (m : EntityManager) : ReachFrom m m
  | alloc {m0 m m' : EntityManager} {e : Entity} :
      ReachFrom m0 m → m.allocate? = some (m', e) → ReachFrom m0 m'
  | dealloc {m0 m m' : EntityManager} {e : Entity} :
      ReachFrom m0 m → m.deallocate? e = some m' → ReachFrom m0 m'

/-- States reachable from a freshly constructed allocator. -/
def Reachable (m : EntityManager) : Prop :=
  ReachFrom EntityManager.new m

/-- `FreeChain fe s C`: starting from head `s` and following the links in
`fe`, the traversal visits exactly the indices in `C` and ends at `none`. -/
inductive FreeChain : List (Option Nat) → Option Nat → List Nat → Prop where
  | nil (fe : List (Option Nat)) : FreeChain fe none []
  | cons {fe : List (Option Nat)} {i : Nat} {next : Option Nat} {rest : List Nat} :
      fe.get? i = some next → FreeChain fe next rest →
      FreeChain fe (some i) (i :: rest)

/-- Slot `i` lies on the allocator's free chain. -/
def OnChain (m : EntityManager) (i : Nat) : Prop :=
  ∃ C, FreeChain m.free_entities m.first_free C ∧ i ∈ C

/-- An optional slot index that, when present, is below `n`. -/
def OptInBounds (n : Nat) : Option Nat → Prop
  | none => True
  | some j => j < n

/-- Basic bounds invariant: the two tables have equal length, and the head
and every stored link are in bounds when present. -/
def BInv (m : EntityManager) : Prop :=
  m.generations.length = m.free_entities.length ∧
  OptInBounds m.generations.length m.first_free ∧
  ∀ o ∈ m.free_entities, OptInBounds m.generations.length o

/-- Free-list well-formedness relative to the handles `R` ever returned by
`allocate`: a duplicate-free free chain exists, every returned handle is in
bounds with generation at most the slot's current one, and a returned
handle whose generation is current does not sit on the free chain. -/
def Inv (m : EntityManager) (R : List Entity) : Prop :=
  BInv m ∧
  ∃ C, FreeChain m.free_entities m.first_free C ∧ C.Nodup ∧
    ∀ e ∈ R, ∃ g, m.generations.get? e.index = some g ∧ e.generation ≤ g ∧
      (e.generation = g → e.index ∉ C)

/-- Steps of the allocator in which every `deallocate` argument is a handle
previously returned by `allocate`; the second component accumulates the
returned handles. -/
inductive LegitFrom :
    EntityManager × List Entity → EntityManager × List Entity → Prop where
  | refl (st : EntityManager × List Entity) : LegitFrom st st
  | alloc {st : EntityManager × List Entity} {m m' : EntityManager}
      {R : List Entity} {e : Entity} :
      LegitFrom st (m, R) → m.allocate? = some (m', e) →
      LegitFrom st (m', R ++ [e])
  | dealloc {st : EntityManager × List Entity} {m m' : EntityManager}
      {R : List Entity} {e : Entity} :
      LegitFrom st (m, R) → e ∈ R → m.deallocate? e = some m' →
      LegitFrom st (m', R)

/-- Reachability from a fresh allocator under legitimate deallocations. -/
def LegitReach (m : EntityManager) (R : List Entity) : Prop :=
  LegitFrom (EntityManager.new, []) (m, R)

/-- Tracking predicate for slot `i` after it was allocated at generation
`g`: the slot's generation never drops below `g`, and whenever the slot is
back on the free chain the generation has strictly exceeded `g`. -/
def PGen (i g : Nat) (m : EntityManager) : Prop :=
  ∃ gi, m.generations.get? i = some gi ∧ g ≤ gi ∧ (OnChain m i → g + 1 ≤ gi)

/-! ### Basic lemmas about the operations -/

theorem is_alive?_eq_some_true {m : EntityManager} {e : Entity} :
    m.is_alive? e = some true ↔ m.generations.get? e.index = some e.generation := by
  unfold EntityManager.is_alive?
  cases h : m.generations.get? e.index with
  | none => simp
  | some g =>
    simp only [Option.map_some', Option.some.injEq, beq_iff_eq]
    exact eq_comm

theorem deallocate?_alive {m : EntityManager} {e : Entity}
    (hg : m.generations.get? e.index = some e.generation)
    (hf : e.index < m.free_entities.length) :
    m.deallocate? e = some ⟨m.free_entities.set e.index m.first_free,
      m.generations.set e.index (e.generation + 1), some e.index⟩ := by
  have hd : m.generations[e.index]?.getD 0 = e.generation := by
    rw [← List.get?_eq_getElem?, hg]
    rfl
  unfold EntityManager.deallocate? EntityManager.is_alive?
  rw [hg]
  simp [hf, hd]

theorem deallocate?_stale {m : EntityManager} {e : Entity} {g : Nat}
    (hg : m.generations.get? e.index = some g) (hne : e.generation ≠ g) :
    m.deallocate? e = some m := by
  have hb : (e.generation == g) = false := by simp [hne]
  unfold EntityManager.deallocate? EntityManager.is_alive?
  rw [hg]
  simp [hb]

/-- Claim C8: `is_alive` returns the comparison
`h.generation == generation_of[h.slot_index]` whenever the slot index is in
bounds, and fails (panics) exactly when the slot index is at least the table
length. -/
theorem claim_C8 (m : EntityManager) (e : Entity) :
    (∀ g, m.generations.get? e.index = some g →
      m.is_alive? e = some (e.generation == g)) ∧
    (m.is_alive? e = none ↔ m.generations.length ≤ e.index) := by
  constructor
  · intro g hg
    unfold EntityManager.is_alive?
    rw [hg]
    rfl
  · unfold EntityManager.is_alive?
    rw [Option.map_eq_none', List.get?_eq_none]

theorem claim_C8_witness :
    EntityManager.new.is_alive? ⟨0, 0⟩ = some ((0 : Nat) == 0) ∧
    (EntityManager.new.is_alive? ⟨5, 0⟩ = none ↔
      EntityManager.new.generations.length ≤ 5) :=
  ⟨(claim_C8 EntityManager.new ⟨0, 0⟩).1 0 rfl, (claim_C8 EntityManager.new ⟨5, 0⟩).2⟩

/-- Claim C4: `deallocate` of a stale handle (generation mismatch, in-bounds
slot) leaves the state unchanged, and deallocating twice in a row produces
exactly the state of deallocating once. -/
theorem claim_C4 (m : EntityManager) (e : Entity) :
    (∀ g, m.generations.get? e.index = some g → e.generation ≠ g →
      m.deallocate? e = some m) ∧
    (∀ m', m.deallocate? e = some m' → m'.deallocate? e = some m') := by
  constructor
  · intro g hg hne
    exact deallocate?_stale hg hne
  · intro m' h
    cases ha : m.is_alive? e with
    | none => simp [EntityManager.deallocate?, ha] at h
    | some b =>
      cases b with
      | false =>
        have hm : m = m' := by
          simpa [EntityManager.deallocate?, ha] using h
        subst hm
        simp [EntityManager.deallocate?, ha]
      | true =>
        have hg : m.generations.get? e.index = some e.generation :=
          is_alive?_eq_some_true.mp ha
        by_cases hf : e.index < m.free_entities.length
        · rw [deallocate?_alive hg hf] at h
          have hm : m' = ⟨m.free_entities.set e.index m.first_free,
              m.generations.set e.index (e.generation + 1), some e.index⟩ :=
            (Option.some.injEq _ _ ▸ h).symm
          subst hm
          have hlt : e.index < m.generations.length :=
            (List.get?_eq_some.mp hg).1
          have hg' : (m.generations.set e.index (e.generation + 1)).get? e.index =
              some (e.generation + 1) :=
            List.get?_set_eq_of_lt _ hlt
          exact deallocate?_stale hg' (Nat.ne_of_lt (Nat.lt_succ_self _))
        · simp [EntityManager.deallocate?, ha, hf] at h

theorem claim_C4_witness :
    (⟨[none], [1], none⟩ : EntityManager).deallocate? ⟨0, 0⟩ =
      some ⟨[none], [1], none⟩ ∧
    (⟨[some 0], [1], some 0⟩ : EntityManager).deallocate? ⟨0, 0⟩ =
      some ⟨[some 0], [1], some 0⟩ :=
  ⟨(claim_C4 ⟨[none], [1], none⟩ ⟨0, 0⟩).1 1 rfl (by decide),
   (claim_C4 EntityManager.new ⟨0, 0⟩).2 ⟨[some 0], [1], some 0⟩ (by decide)⟩

/-- Claim C5: the concrete scenario from the spec — a fresh allocator has
one free slot `(0, gen 0)`; three allocations return `(0,0)`, `(1,0)`,
`(2,0)`; after deallocating `(1,0)` the liveness of the three handles is
`true`, `false`, `true`; after further deallocating `(0,0)` the next
allocation returns `(0, gen 1)` and the free-list head is slot 1. -/
theorem claim_C5 :
    EntityManager.new = ⟨[none], [0], some 0⟩ ∧
    runOps (EntityManager.new, []) [Op.alloc, Op.alloc, Op.alloc] =
      some (⟨[none, none, none], [0, 0, 0], none⟩, [⟨0, 0⟩, ⟨1, 0⟩, ⟨2, 0⟩]) ∧
    runOps (EntityManager.new, [])
        [Op.alloc, Op.alloc, Op.alloc, Op.dealloc ⟨1, 0⟩] =
      some (⟨[none, none, none], [0, 1, 0], some 1⟩, [⟨0, 0⟩, ⟨1, 0⟩, ⟨2, 0⟩]) ∧
    (⟨[none, none, none], [0, 1, 0], some 1⟩ : EntityManager).is_alive? ⟨0, 0⟩ =
      some true ∧
    (⟨[none, none, none], [0, 1, 0], some 1⟩ : EntityManager).is_alive? ⟨1, 0⟩ =
      some false ∧
    (⟨[none, none, none], [0, 1, 0], some 1⟩ : EntityManager).is_alive? ⟨2, 0⟩ =
      some true ∧
    runOps (EntityManager.new, [])
        [Op.alloc, Op.alloc, Op.alloc, Op.dealloc ⟨1, 0⟩, Op.dealloc ⟨0, 0⟩,
          Op.alloc] =
      some (⟨[some 1, none, none], [1, 1, 0], some 1⟩,
        [⟨0, 0⟩, ⟨1, 0⟩, ⟨2, 0⟩, ⟨0, 1⟩]) ∧
    (⟨[some 1, none, none], [1, 1, 0], some 1⟩ : EntityManager).first_free =
      some 1 := by
  decide

/-! ### Lemmas about `Component` -/

theorem resize_length {V : Type} [Inhabited V] (c : Component V) (n : Nat) :
    (c.resize n).values.length = max c.values.length n := by
  unfold Component.resize
  by_cases h : c.values.length < n
  · simp only [h, if_true, List.length_append, List.length_replicate]
    omega
  · simp only [h, if_false]
    omega

theorem resize_get?_lt {V : Type} [Inhabited V] (c : Component V) (n j : Nat)
    (h : j < c.values.length) : (c.resize n).values.get? j = c.values.get? j := by
  unfold Component.resize
  by_cases hlt : c.values.length < n
  · simp only [hlt, if_true]
    exact List.get?_append h
  · simp [hlt]

theorem resize_get?_default {V : Type} [Inhabited V] (c : Component V) (n j : Nat)
    (h1 : c.values.length ≤ j) (h2 : j < n) :
    (c.resize n).values.get? j = some default := by
  have hlt : c.values.length < n := lt_of_le_of_lt h1 h2
  unfold Component.resize
  simp only [hlt, if_true]
  rw [List.get?_append_right h1, List.get?_eq_getElem?, List.getElem?_replicate,
    if_pos (by omega)]

/-- Claim C7: `set` grows the store to length `slot_index + 1` exactly when
the index was out of range (filling with defaults), otherwise keeps the
length; it overwrites only the target entry; `get`/`get_mut` never grow and
fail exactly when the index is at least the current length, otherwise
returning the stored value. -/
theorem claim_C7 {V : Type} [Inhabited V] (s : Component V) (e : Entity) (v : V) :
    (s.values.length ≤ e.index → (s.set e v).values.length = e.index + 1) ∧
    (e.index < s.values.length → (s.set e v).values.length = s.values.length) ∧
    ((s.set e v).get? e = some v) ∧
    (∀ j, j < s.values.length → j ≠ e.index →
      (s.set e v).values.get? j = s.values.get? j) ∧
    (∀ j, s.values.length ≤ j → j < e.index →
      (s.set e v).values.get? j = some (default : V)) ∧
    (s.get? e = none ↔ s.values.length ≤ e.index) ∧
    (s.get_mut? e = none ↔ s.values.length ≤ e.index) ∧
    (∀ hj : e.index < s.values.length,
      s.get? e = some (s.values.get ⟨e.index, hj⟩)) := by
  have hlen : (s.set e v).values.length = max s.values.length (e.index + 1) := by
    unfold Component.set
    rw [List.length_set, resize_length]
  refine ⟨?_, ?_, ?_, ?_, ?_, ?_, ?_, ?_⟩
  · intro h
    rw [hlen]
    omega
  · intro h
    rw [hlen]
    omega
  · unfold Component.get? Component.set
    exact List.get?_set_eq_of_lt _ (by rw [resize_length]; omega)
  · intro j hj hne
    unfold Component.set
    rw [List.get?_set_ne _ _ (fun h => hne h.symm)]
    exact resize_get?_lt s (e.index + 1) j hj
  · intro j h1 h2
    unfold Component.set
    rw [List.get?_set_ne _ _ (fun h => absurd h.symm (Nat.ne_of_lt h2))]
    exact resize_get?_default s (e.index + 1) j h1 (Nat.lt_succ_of_lt h2)
  · unfold Component.get?
    exact List.get?_eq_none
  · unfold Component.get_mut?
    exact List.get?_eq_none
  · intro hj
    unfold Component.get?
    exact List.get?_eq_get hj

/-! ### Inversion lemmas for `allocate?` and `deallocate?` -/

theorem is_alive?_eq_some_false {m : EntityManager} {e : Entity} :
    m.is_alive? e = some false ↔
      ∃ g, m.generations.get? e.index = some g ∧ e.generation ≠ g := by
  unfold EntityManager.is_alive?
  cases h : m.generations.get? e.index with
  | none => simp
  | some g =>
    simp only [Option.map_some', Option.some.injEq, beq_eq_false_iff_ne, ne_eq]
    constructor
    · intro hne
      exact ⟨g, rfl, hne⟩
    · rintro ⟨g1, h1, h2⟩
      rw [h1]
      exact h2

theorem allocate?_pop {m : EntityManager} {i : Nat} {link : Option Nat} {g : Nat}
    (hf : m.first_free = some i) (hfe : m.free_entities.get? i = some link)
    (hg : m.generations.get? i = some g) :
    m.allocate? =
      some (⟨m.free_entities, m.generations, link⟩, ⟨i, g⟩) := by
  unfold EntityManager.allocate?
  rw [List.get?_eq_getElem?] at hfe hg
  simp [hf, hfe, hg]

theorem allocate?_append {m : EntityManager} (hf : m.first_free = none) :
    m.allocate? =
      some (⟨m.free_entities ++ [none], m.generations ++ [0], none⟩,
        ⟨m.free_entities.length, 0⟩) := by
  unfold EntityManager.allocate?
  rw [hf]

theorem allocate?_inv {m m' : EntityManager} {e : Entity}
    (h : m.allocate? = some (m', e)) :
    (∃ i link g, m.first_free = some i ∧ m.free_entities.get? i = some link ∧
      m.generations.get? i = some g ∧
      m' = ⟨m.free_entities, m.generations, link⟩ ∧ e = ⟨i, g⟩) ∨
    (m.first_free = none ∧
      m' = ⟨m.free_entities ++ [none], m.generations ++ [0], none⟩ ∧
      e = ⟨m.free_entities.length, 0⟩) := by
  unfold EntityManager.allocate? at h
  split at h
  · rename_i i hff
    split at h
    · rename_i link g hfe hg
      rw [Option.some.injEq, Prod.mk.injEq] at h
      exact Or.inl ⟨i, link, g, hff, hfe, hg, h.1.symm, h.2.symm⟩
    · exact absurd h (by simp)
    · exact absurd h (by simp)
  · rename_i hff
    rw [Option.some.injEq, Prod.mk.injEq] at h
    exact Or.inr ⟨hff, h.1.symm, h.2.symm⟩

theorem deallocate?_inv {m m' : EntityManager} {e : Entity}
    (h : m.deallocate? e = some m') :
    (m' = m ∧ ∃ g, m.generations.get? e.index = some g ∧ e.generation ≠ g) ∨
    (m.generations.get? e.index = some e.generation ∧
      e.index < m.free_entities.length ∧
      m' = ⟨m.free_entities.set e.index m.first_free,
        m.generations.set e.index (e.generation + 1), some e.index⟩) := by
  cases ha : m.is_alive? e with
  | none => simp [EntityManager.deallocate?, ha] at h
  | some b =>
    cases b with
    | false =>
      have hm : m = m' := by
        simpa [EntityManager.deallocate?, ha] using h
      exact Or.inl ⟨hm.symm, is_alive?_eq_some_false.mp ha⟩
    | true =>
      have hg : m.generations.get? e.index = some e.generation :=
        is_alive?_eq_some_true.mp ha
      by_cases hf : e.index < m.free_entities.length
      · rw [deallocate?_alive hg hf, Option.some.injEq] at h
        exact Or.inr ⟨hg, hf, h.symm⟩
      · simp [EntityManager.deallocate?, ha, hf] at h

/-! ### The bounds invariant and monotonicity of generations -/

theorem optInBounds_mono {n n' : Nat} {o : Option Nat} (h : OptInBounds n o)
    (hle : n ≤ n') : OptInBounds n' o := by
  cases o with
  | none => trivial
  | some j => exact lt_of_lt_of_le h hle

theorem binv_new : BInv EntityManager.new := by
  refine ⟨rfl, ?_, ?_⟩
  · show (0 : Nat) < 1
    decide
  · intro o ho
    simp [EntityManager.new] at ho
    subst ho
    trivial

theorem binv_alloc {m m' : EntityManager} {e : Entity} (h : BInv m)
    (ha : m.allocate? = some (m', e)) : BInv m' := by
  obtain ⟨hlen, hff, hmem⟩ := h
  rcases allocate?_inv ha with
    ⟨i, link, g, hf, hfe, hg, hm, he⟩ | ⟨hf, hm, he⟩
  · subst hm
    exact ⟨hlen, hmem link (List.get?_mem hfe), hmem⟩
  · subst hm
    refine ⟨?_, trivial, ?_⟩
    · simp [hlen]
    · intro o ho
      rcases List.mem_append.mp ho with h1 | h1
      · exact optInBounds_mono (hmem o h1) (by simp)
      · simp at h1
        subst h1
        trivial

theorem binv_dealloc {m m' : EntityManager} {e : Entity} (h : BInv m)
    (hd : m.deallocate? e = some m') : BInv m' := by
  obtain ⟨hlen, hff, hmem⟩ := h
  rcases deallocate?_inv hd with ⟨hm, _⟩ | ⟨hg, hf, hm⟩
  · subst hm
    exact ⟨hlen, hff, hmem⟩
  · subst hm
    refine ⟨?_, ?_, ?_⟩
    · simp [hlen]
    · show e.index < _
      rw [List.length_set]
      exact (List.get?_eq_some.mp hg).1
    · intro o ho
      rw [List.length_set]
      rcases List.mem_or_eq_of_mem_set ho with h1 | h1
      · exact hmem o h1
      · subst h1
        exact hff

theorem binv_reachFrom {m m' : EntityManager} (h : BInv m)
    (hr : ReachFrom m m') : BInv m' := by
  induction hr with
  | refl => exact h
  | alloc _ ha ih => exact binv_alloc ih ha
  | dealloc _ hd ih => exact binv_dealloc ih hd

theorem binv_reachable {m : EntityManager} (h : Reachable m) : BInv m :=
  binv_reachFrom binv_new h

theorem gens_alloc {m m' : EntityManager} {e : Entity}
    (ha : m.allocate? = some (m', e)) :
    m.generations.length ≤ m'.generations.length ∧
    m'.generations.length ≤ m.generations.length + 1 ∧
    ∀ i g, m.generations.get? i = some g → m'.generations.get? i = some g := by
  rcases allocate?_inv ha with
    ⟨j, link, g0, hf, hfe, hg0, hm, he⟩ | ⟨hf, hm, he⟩
  · subst hm
    exact ⟨le_refl _, Nat.le_succ _, fun i g hg => hg⟩
  · subst hm
    refine ⟨by simp, by simp, ?_⟩
    intro i g hg
    rw [List.get?_append (List.get?_eq_some.mp hg).1]
    exact hg

theorem gens_dealloc {m m' : EntityManager} {e : Entity}
    (hd : m.deallocate? e = some m') :
    m'.generations.length = m.generations.length ∧
    ∀ i g, m.generations.get? i = some g →
      ∃ g', m'.generations.get? i = some g' ∧ g ≤ g' := by
  rcases deallocate?_inv hd with ⟨hm, _⟩ | ⟨hg, hf, hm⟩
  · subst hm
    exact ⟨rfl, fun i g hgi => ⟨g, hgi, le_refl _⟩⟩
  · subst hm
    refine ⟨List.length_set _ _ _, ?_⟩
    intro i g hgi
    by_cases hi : i = e.index
    · subst hi
      rw [hgi] at hg
      injection hg with hg
      refine ⟨e.generation + 1, ?_, ?_⟩
      · exact List.get?_set_eq_of_lt _ (List.get?_eq_some.mp hgi).1
      · omega
    · exact ⟨g, by rw [List.get?_set_ne _ _ (fun hh => hi hh.symm)]; exact hgi,
        le_refl _⟩

/-- Generation entries never shrink and never decrease along any sequence of
successful operations, forged deallocations included. -/
theorem gens_reachFrom {m m' : EntityManager} (h : ReachFrom m m') :
    m.generations.length ≤ m'.generations.length ∧
    ∀ i g, m.generations.get? i = some g →
      ∃ g', m'.generations.get? i = some g' ∧ g ≤ g' := by
  induction h with
  | refl => exact ⟨le_refl _, fun i g hg => ⟨g, hg, le_refl _⟩⟩
  | alloc _ ha ih =>
    obtain ⟨hl1, hmono⟩ := ih
    obtain ⟨hl2, _, hkeep⟩ := gens_alloc ha
    refine ⟨le_trans hl1 hl2, ?_⟩
    intro i g hg
    obtain ⟨g', hg', hle⟩ := hmono i g hg
    exact ⟨g', hkeep i g' hg', hle⟩
  | dealloc _ hd ih =>
    obtain ⟨hl1, hmono⟩ := ih
    obtain ⟨hl2, hstep⟩ := gens_dealloc hd
    refine ⟨by omega, ?_⟩
    intro i g hg
    obtain ⟨g', hg', hle⟩ := hmono i g hg
    obtain ⟨g'', hg'', hle'⟩ := hstep i g' hg'
    exact ⟨g'', hg'', le_trans hle hle'⟩

/-- Claim C9: in every reachable state the two tables have equal length;
`allocate` grows that length by at most one, `deallocate` never changes it,
and it never decreases along any further sequence of operations. -/
theorem claim_C9 (m : EntityManager) (h : Reachable m) :
    m.generations.length = m.free_entities.length ∧
    (∀ m' e, m.allocate? = some (m', e) →
      m'.generations.length = m'.free_entities.length ∧
      m.generations.length ≤ m'.generations.length ∧
      m'.generations.length ≤ m.generations.length + 1) ∧
    (∀ m' e, m.deallocate? e = some m' →
      m'.generations.length = m.generations.length ∧
      m'.free_entities.length = m.free_entities.length) ∧
    (∀ m', ReachFrom m m' → m.generations.length ≤ m'.generations.length) := by
  have hb := binv_reachable h
  refine ⟨hb.1, ?_, ?_, ?_⟩
  · intro m' e ha
    obtain ⟨h1, h2, _⟩ := gens_alloc ha
    exact ⟨(binv_alloc hb ha).1, h1, h2⟩
  · intro m' e hd
    refine ⟨(gens_dealloc hd).1, ?_⟩
    rcases deallocate?_inv hd with ⟨hm, _⟩ | ⟨_, _, hm⟩
    · subst hm; rfl
    · subst hm; exact List.length_set _ _ _
  · intro m' hr
    exact (gens_reachFrom hr).1

theorem claim_C9_witness :
    EntityManager.new.generations.length =
      EntityManager.new.free_entities.length ∧
    EntityManager.new.generations.length ≤
      EntityManager.new.generations.length :=
  ⟨(claim_C9 EntityManager.new (ReachFrom.refl _)).1,
   (claim_C9 EntityManager.new (ReachFrom.refl _)).2.2.2 EntityManager.new
     (ReachFrom.refl _)⟩

/-- Claim C2: on every reachable allocator state `allocate` succeeds and
follows exactly the source algorithm: pop the free-list head (leaving the
tables untouched and the popped link stale) and hand out that slot at its
current generation, or — when the free list is empty — append one fresh
slot at generation 0. -/
theorem claim_C2 (m : EntityManager) (h : Reachable m) :
    ∃ m' e, m.allocate? = some (m', e) ∧
      ((∃ i link g, m.first_free = some i ∧
        m.free_entities.get? i = some link ∧
        m.generations.get? i = some g ∧
        m' = ⟨m.free_entities, m.generations, link⟩ ∧ e = ⟨i, g⟩) ∨
       (m.first_free = none ∧
        m' = ⟨m.free_entities ++ [none], m.generations ++ [0], none⟩ ∧
        e = ⟨m.free_entities.length, 0⟩)) := by
  obtain ⟨hlen, hff, _⟩ := binv_reachable h
  cases hf : m.first_free with
  | none =>
    exact ⟨_, _, allocate?_append hf, Or.inr ⟨rfl, rfl, rfl⟩⟩
  | some i =>
    rw [hf] at hff
    have hig : i < m.generations.length := hff
    have hif : i < m.free_entities.length := by omega
    exact ⟨_, _, allocate?_pop hf (List.get?_eq_get hif) (List.get?_eq_get hig),
      Or.inl ⟨i, m.free_entities.get ⟨i, hif⟩, m.generations.get ⟨i, hig⟩,
        rfl, List.get?_eq_get hif, List.get?_eq_get hig, rfl, rfl⟩⟩

theorem claim_C2_witness :
    ∃ m' e, EntityManager.new.allocate? = some (m', e) ∧
      ((∃ i link g, EntityManager.new.first_free = some i ∧
        EntityManager.new.free_entities.get? i = some link ∧
        EntityManager.new.generations.get? i = some g ∧
        m' = ⟨EntityManager.new.free_entities, EntityManager.new.generations,
          link⟩ ∧ e = ⟨i, g⟩) ∨
       (EntityManager.new.first_free = none ∧
        m' = ⟨EntityManager.new.free_entities ++ [none],
          EntityManager.new.generations ++ [0], none⟩ ∧
        e = ⟨EntityManager.new.free_entities.length, 0⟩)) :=
  claim_C2 EntityManager.new (ReachFrom.refl _)

/-- Claim C1: a handle is alive immediately after `allocate` returns it; it
is dead immediately after a successful `deallocate` performed while it was
alive; and it stays dead in every state obtained by any further sequence of
successful `allocate`/`deallocate` calls. -/
theorem claim_C1 :
    (∀ (m m' : EntityManager) (e : Entity), Reachable m →
      m.allocate? = some (m', e) → m'.is_alive? e = some true) ∧
    (∀ (m m' : EntityManager) (e : Entity), m.is_alive? e = some true →
      m.deallocate? e = some m' → m'.is_alive? e = some false) ∧
    (∀ (m m' m'' : EntityManager) (e : Entity), m.is_alive? e = some true →
      m.deallocate? e = some m' → ReachFrom m' m'' →
      m''.is_alive? e = some false) := by
  have dead : ∀ (m m' : EntityManager) (e : Entity),
      m.is_alive? e = some true → m.deallocate? e = some m' →
      m'.generations.get? e.index = some (e.generation + 1) := by
    intro m m' e hal hd
    have hg := is_alive?_eq_some_true.mp hal
    rcases deallocate?_inv hd with ⟨_, g, hg', hne⟩ | ⟨_, _, hm⟩
    · rw [hg] at hg'
      injection hg' with hg'
      exact absurd hg' hne
    · subst hm
      exact List.get?_set_eq_of_lt _ (List.get?_eq_some.mp hg).1
  refine ⟨?_, ?_, ?_⟩
  · intro m m' e h ha
    have hlen := (binv_reachable h).1
    rw [is_alive?_eq_some_true]
    rcases allocate?_inv ha with
      ⟨i, link, g, hf, hfe, hg, hm, he⟩ | ⟨hf, hm, he⟩
    · subst hm; subst he
      exact hg
    · subst hm; subst he
      show (m.generations ++ [0]).get? m.free_entities.length = some 0
      rw [← hlen]
      exact List.get?_concat_length _ _
  · intro m m' e hal hd
    rw [is_alive?_eq_some_false]
    exact ⟨e.generation + 1, dead m m' e hal hd, by omega⟩
  · intro m m' m'' e hal hd hr
    rw [is_alive?_eq_some_false]
    obtain ⟨g', hg', hle⟩ :=
      (gens_reachFrom hr).2 e.index (e.generation + 1) (dead m m' e hal hd)
    exact ⟨g', hg', by omega⟩

theorem claim_C1_witness :
    (⟨[none], [0], none⟩ : EntityManager).is_alive? ⟨0, 0⟩ = some true ∧
    (⟨[none], [1], some 0⟩ : EntityManager).is_alive? ⟨0, 0⟩ = some false ∧
    (⟨[none], [1], some 0⟩ : EntityManager).is_alive? ⟨0, 0⟩ = some false :=
  ⟨claim_C1.1 EntityManager.new ⟨[none], [0], none⟩ ⟨0, 0⟩ (ReachFrom.refl _)
      (by decide),
   claim_C1.2.1 ⟨[none], [0], none⟩ ⟨[none], [1], some 0⟩ ⟨0, 0⟩ (by decide)
      (by decide),
   claim_C1.2.2 ⟨[none], [0], none⟩ ⟨[none], [1], some 0⟩ ⟨[none], [1], some 0⟩
      ⟨0, 0⟩ (by decide) (by decide) (ReachFrom.refl _)⟩

theorem claim_C7_witness :
    ((⟨[]⟩ : Component Nat).set ⟨2, 0⟩ 7).values.length = 2 + 1 ∧
    ((⟨[]⟩ : Component Nat).set ⟨2, 0⟩ 7).get? ⟨2, 0⟩ = some 7 ∧
    ((⟨[]⟩ : Component Nat).set ⟨2, 0⟩ 7).values.get? 0 = some (default : Nat) :=
  ⟨(claim_C7 ⟨[]⟩ ⟨2, 0⟩ 7).1 (by decide),
   (claim_C7 ⟨[]⟩ ⟨2, 0⟩ 7).2.2.1,
   (claim_C7 ⟨[]⟩ ⟨2, 0⟩ 7).2.2.2.2.1 0 (by decide) (by decide)⟩

/-! ### Store independence from the allocator (claim C6) -/

theorem set_get?_self {V : Type} [Inhabited V] (s : Component V) (e : Entity)
    (v : V) : (s.set e v).get? e = some v := by
  unfold Component.get? Component.set
  exact List.get?_set_eq_of_lt _ (by rw [resize_length]; omega)

theorem set_get?_keep {V : Type} [Inhabited V] {s : Component V} {h : Entity}
    {v : V} (hv : s.get? h = some v) (e : Entity) (w : V)
    (hne : e.index ≠ h.index) : (s.set e w).get? h = some v := by
  unfold Component.get? at hv ⊢
  unfold Component.set
  rw [List.get?_set_ne _ _ hne,
    resize_get?_lt s (e.index + 1) h.index (List.get?_eq_some.mp hv).1]
  exact hv

theorem wrun_keep {V : Type} [Inhabited V] (ops : List (WOp V)) :
    ∀ (m : EntityManager) (s : Component V) (h : Entity) (v : V)
      (m' : EntityManager) (s' : Component V),
    s.get? h = some v →
    (∀ e w, WOp.wset e w ∈ ops → e.index ≠ h.index) →
    wrun (m, s) ops = some (m', s') → s'.get? h = some v := by
  induction ops with
  | nil =>
    intro m s h v m' s' hv _ hr
    rw [wrun] at hr
    rw [Option.some.injEq, Prod.mk.injEq] at hr
    rw [← hr.2]
    exact hv
  | cons op ops ih =>
    intro m s h v m' s' hv hcond hr
    cases op with
    | alloc =>
      rw [wrun] at hr
      split at hr
      · rename_i m1 e1 ha
        exact ih m1 s h v m' s' hv
          (fun e w hmem => hcond e w (List.mem_cons_of_mem _ hmem)) hr
      · exact absurd hr (by simp)
    | dealloc e1 =>
      rw [wrun] at hr
      split at hr
      · rename_i m1 hd
        exact ih m1 s h v m' s' hv
          (fun e w hmem => hcond e w (List.mem_cons_of_mem _ hmem)) hr
      · exact absurd hr (by simp)
    | wset e1 w1 =>
      rw [wrun] at hr
      have hne : e1.index ≠ h.index :=
        hcond e1 w1 (List.mem_cons_self _ _)
      exact ih m (s.set e1 w1) h v m' s' (set_get?_keep hv e1 w1 hne)
        (fun e w hmem => hcond e w (List.mem_cons_of_mem _ hmem)) hr

/-- Claim C6: after `set h v`, any interleaving of allocator calls
(including deallocating `h` and reallocating its slot) and `set` calls on
other slot indices leaves `get h` returning `v`; the store never consults
the allocator. -/
theorem claim_C6 {V : Type} [Inhabited V] (m : EntityManager) (s : Component V)
    (h : Entity) (v : V) (ops : List (WOp V)) (m' : EntityManager)
    (s' : Component V)
    (hops : ∀ e w, WOp.wset e w ∈ ops → e.index ≠ h.index)
    (hr : wrun (m, s.set h v) ops = some (m', s')) :
    s'.get? h = some v :=
  wrun_keep ops m (s.set h v) h v m' s' (set_get?_self s h v) hops hr

theorem claim_C6_witness :
    (⟨[5, 9]⟩ : Component Nat).get? ⟨0, 0⟩ = some 5 :=
  claim_C6 EntityManager.new ⟨[]⟩ ⟨0, 0⟩ 5
    [WOp.alloc, WOp.dealloc ⟨0, 0⟩, WOp.wset ⟨1, 0⟩ 9]
    ⟨[none], [1], some 0⟩ ⟨[5, 9]⟩
    (by
      rintro e w hmem
      simp only [List.mem_cons, List.not_mem_nil, or_false] at hmem
      rcases hmem with h1 | h1 | h1
      · exact absurd h1 (by simp)
      · exact absurd h1 (by simp)
      · rw [WOp.wset.injEq] at h1
        rw [h1.1]
        decide)
    rfl

/-! ### Free-chain lemmas -/

theorem freeChain_unique {fe : List (Option Nat)} {s : Option Nat}
    {C1 C2 : List Nat} (h1 : FreeChain fe s C1) (h2 : FreeChain fe s C2) :
    C1 = C2 := by
  induction h1 generalizing C2 with
  | nil =>
    cases h2
    rfl
  | cons hget hnext ih =>
    cases h2 with
    | cons hget2 hnext2 =>
      rw [hget] at hget2
      injection hget2 with hget2
      subst hget2
      rw [ih hnext2]

theorem freeChain_set_of_not_mem {fe : List (Option Nat)} {s : Option Nat}
    {C : List Nat} (h : FreeChain fe s C) {j : Nat} {x : Option Nat}
    (hj : j ∉ C) : FreeChain (fe.set j x) s C := by
  induction h with
  | nil => exact FreeChain.nil _
  | cons hget hnext ih =>
    rename_i i next rest
    have hij : j ≠ i := fun hh => hj (hh ▸ List.mem_cons_self _ _)
    exact FreeChain.cons
      (by rw [List.get?_set_ne _ _ hij]; exact hget)
      (ih (fun hh => hj (List.mem_cons_of_mem _ hh)))

theorem freeChain_append {fe : List (Option Nat)} {s : Option Nat}
    {C : List Nat} (h : FreeChain fe s C) (x : Option Nat) :
    FreeChain (fe ++ [x]) s C := by
  induction h with
  | nil => exact FreeChain.nil _
  | cons hget hnext ih =>
    exact FreeChain.cons
      (by rw [List.get?_append (List.get?_eq_some.mp hget).1]; exact hget) ih

theorem freeChain_mem_lt {fe : List (Option Nat)} {s : Option Nat}
    {C : List Nat} (h : FreeChain fe s C) : ∀ i ∈ C, i < fe.length := by
  induction h with
  | nil =>
    intro i hi
    cases hi
  | cons hget hnext ih =>
    intro i hi
    rcases List.mem_cons.mp hi with h1 | h1
    · subst h1
      exact (List.get?_eq_some.mp hget).1
    · exact ih i h1

/-! ### The free-list invariant under legitimate traces -/

theorem inv_init : Inv EntityManager.new [] := by
  refine ⟨binv_new, [0], ?_, ?_, ?_⟩
  · exact FreeChain.cons rfl (FreeChain.nil _)
  · exact List.nodup_singleton 0
  · intro e he
    cases he

theorem inv_alloc {m m' : EntityManager} {R : List Entity} {e : Entity}
    (h : Inv m R) (ha : m.allocate? = some (m', e)) : Inv m' (R ++ [e]) := by
  obtain ⟨hb, C, hchain, hnodup, hR⟩ := h
  rcases allocate?_inv ha with
    ⟨i, link, g, hf, hfe, hg, hm, he⟩ | ⟨hf, hm, he⟩
  · rw [hf] at hchain
    cases hchain with
    | cons hget hnext =>
      rename_i next rest
      rw [hfe] at hget
      injection hget with hget
      subst hget
      subst hm
      subst he
      refine ⟨binv_alloc hb ha, rest, hnext,
        (List.nodup_cons.mp hnodup).2, ?_⟩
      intro e' he'
      rcases List.mem_append.mp he' with h1 | h1
      · obtain ⟨g', hg', hle, hnc⟩ := hR e' h1
        exact ⟨g', hg', hle,
          fun hgen hmem => hnc hgen (List.mem_cons_of_mem _ hmem)⟩
      · rw [List.mem_singleton] at h1
        subst h1
        exact ⟨g, hg, le_refl _,
          fun _ hmem => (List.nodup_cons.mp hnodup).1 hmem⟩
  · rw [hf] at hchain
    cases hchain
    subst hm
    subst he
    refine ⟨binv_alloc hb ha, [], FreeChain.nil _, List.nodup_nil, ?_⟩
    intro e' he'
    rcases List.mem_append.mp he' with h1 | h1
    · obtain ⟨g', hg', hle, _⟩ := hR e' h1
      refine ⟨g', ?_, hle, fun _ hmem => (List.not_mem_nil _) hmem⟩
      show (m.generations ++ [0]).get? e'.index = some g'
      rw [List.get?_append (List.get?_eq_some.mp hg').1]
      exact hg'
    · rw [List.mem_singleton] at h1
      subst h1
      refine ⟨0, ?_, le_refl _, fun _ hmem => (List.not_mem_nil _) hmem⟩
      show (m.generations ++ [0]).get? m.free_entities.length = some 0
      rw [← hb.1]
      exact List.get?_concat_length _ _

theorem inv_dealloc {m m' : EntityManager} {R : List Entity} {e : Entity}
    (h : Inv m R) (heR : e ∈ R) (hd : m.deallocate? e = some m') :
    Inv m' R := by
  obtain ⟨hb, C, hchain, hnodup, hR⟩ := h
  rcases deallocate?_inv hd with ⟨hm, _⟩ | ⟨hg, hf, hm⟩
  · subst hm
    exact ⟨hb, C, hchain, hnodup, hR⟩
  · subst hm
    obtain ⟨g', hg', hle, hnc⟩ := hR e heR
    rw [hg] at hg'
    injection hg' with hg'
    have hnotC : e.index ∉ C := hnc hg'
    refine ⟨binv_dealloc hb hd, e.index :: C, ?_, ?_, ?_⟩
    · exact FreeChain.cons (List.get?_set_eq_of_lt _ hf)
        (freeChain_set_of_not_mem hchain hnotC)
    · exact List.nodup_cons.mpr ⟨hnotC, hnodup⟩
    · intro e' he'
      obtain ⟨g2, hg2, hle2, hnc2⟩ := hR e' he'
      by_cases hi : e'.index = e.index
      · rw [hi, hg] at hg2
        injection hg2 with hg2
        refine ⟨e.generation + 1, ?_, by omega, ?_⟩
        · rw [hi]
          exact List.get?_set_eq_of_lt _ (List.get?_eq_some.mp hg).1
        · intro hgen
          exact absurd hgen (by omega)
      · refine ⟨g2, ?_, hle2, ?_⟩
        · rw [List.get?_set_ne _ _ (fun hh => hi hh.symm)]
          exact hg2
        · intro hgen hmem
          rcases List.mem_cons.mp hmem with h1 | h1
          · exact hi h1
          · exact hnc2 hgen h1

theorem legitFrom_trans {a b c : EntityManager × List Entity}
    (h1 : LegitFrom a b) (h2 : LegitFrom b c) : LegitFrom a c := by
  induction h2 with
  | refl => exact h1
  | alloc _ ha ih => exact LegitFrom.alloc ih ha
  | dealloc _ hmem hd ih => exact LegitFrom.dealloc ih hmem hd

theorem inv_legitFrom {st st' : EntityManager × List Entity}
    (h : Inv st.1 st.2) (hl : LegitFrom st st') : Inv st'.1 st'.2 := by
  induction hl with
  | refl => exact h
  | alloc _ ha ih => exact inv_alloc ih ha
  | dealloc _ hmem hd ih => exact inv_dealloc ih hmem hd

theorem inv_legitReach {m : EntityManager} {R : List Entity}
    (h : LegitReach m R) : Inv m R :=
  inv_legitFrom inv_init h

/-! ### Claim C10: free-list well-formedness -/

theorem no_finite_chain_loop : ∀ C : List Nat, ¬ FreeChain [some 0] (some 0) C := by
  intro C
  induction C with
  | nil =>
    intro h
    cases h
  | cons j rest ih =>
    intro h
    cases h with
    | cons hget hnext =>
      injection hget with hget
      subst hget
      exact ih hnext

/-- Claim C10 counterexample: the state reached from a fresh allocator by the
single call `deallocate(Entity::new(0, 0))` — legal because `Entity::new` is
public and slot 0 starts both free and generation-matching — has
`first_free = Some 0` and `free_entities[0] = Some 0`, so no finite
free-list chain exists at all: traversal never terminates, refuting the
claimed well-formedness of every reachable state. -/
theorem claim_C10_counterexample :
    Reachable ⟨[some 0], [1], some 0⟩ ∧
    ¬∃ C, FreeChain (⟨[some 0], [1], some 0⟩ : EntityManager).free_entities
      (⟨[some 0], [1], some 0⟩ : EntityManager).first_free C := by
  constructor
  · exact ReachFrom.dealloc (ReachFrom.refl _)
      (show EntityManager.new.deallocate? ⟨0, 0⟩ = some _ by decide)
  · rintro ⟨C, hC⟩
    exact no_finite_chain_loop C hC

/-- Claim C10 (amended): in every state reachable from a new allocator by
`allocate` calls and by `deallocate` calls whose argument was previously
returned by `allocate`, the free chain visits pairwise-distinct in-bounds
indices and terminates; no returned handle that is still alive sits on the
chain; and two still-alive returned handles with the same slot index are the
same handle. -/
theorem claim_C10 (m : EntityManager) (R : List Entity) (h : LegitReach m R) :
    ∃ C, FreeChain m.free_entities m.first_free C ∧ C.Nodup ∧
      (∀ i ∈ C, i < m.free_entities.length) ∧
      (∀ e ∈ R, m.is_alive? e = some true → e.index ∉ C) ∧
      (∀ e1 ∈ R, ∀ e2 ∈ R, m.is_alive? e1 = some true →
        m.is_alive? e2 = some true → e1.index = e2.index → e1 = e2) := by
  obtain ⟨hb, C, hchain, hnodup, hR⟩ := inv_legitReach h
  refine ⟨C, hchain, hnodup, freeChain_mem_lt hchain, ?_, ?_⟩
  · intro e heR hal
    obtain ⟨g, hg, _, hnc⟩ := hR e heR
    have hg' := is_alive?_eq_some_true.mp hal
    rw [hg] at hg'
    injection hg' with hg'
    exact hnc hg'.symm
  · intro e1 h1 e2 h2 ha1 ha2 hidx
    have hg1 := is_alive?_eq_some_true.mp ha1
    have hg2 := is_alive?_eq_some_true.mp ha2
    rw [hidx] at hg1
    rw [hg2] at hg1
    injection hg1 with hg1
    cases e1 with
    | mk i1 g1 =>
      cases e2 with
      | mk i2 g2 =>
        simp only at hidx hg1
        rw [Entity.mk.injEq]
        exact ⟨hidx, hg1.symm⟩

theorem claim_C10_witness :
    ∃ C, FreeChain EntityManager.new.free_entities
        EntityManager.new.first_free C ∧ C.Nodup ∧
      (∀ i ∈ C, i < EntityManager.new.free_entities.length) ∧
      (∀ e ∈ ([] : List Entity), EntityManager.new.is_alive? e = some true →
        e.index ∉ C) ∧
      (∀ e1 ∈ ([] : List Entity), ∀ e2 ∈ ([] : List Entity),
        EntityManager.new.is_alive? e1 = some true →
        EntityManager.new.is_alive? e2 = some true →
        e1.index = e2.index → e1 = e2) :=
  claim_C10 EntityManager.new [] (LegitFrom.refl _)

/-! ### Claim C3: freshness of generations on slot reuse -/

theorem alive_after_alloc {m m' : EntityManager} {e : Entity} (hb : BInv m)
    (ha : m.allocate? = some (m', e)) :
    m'.generations.get? e.index = some e.generation := by
  rcases allocate?_inv ha with
    ⟨i, link, g, hf, hfe, hg, hm, he⟩ | ⟨hf, hm, he⟩
  · subst hm
    subst he
    exact hg
  · subst hm
    subst he
    show (m.generations ++ [0]).get? m.free_entities.length = some 0
    rw [← hb.1]
    exact List.get?_concat_length _ _

theorem onChain_of_first_free {m : EntityManager} {i : Nat} {C : List Nat}
    (hf : m.first_free = some i)
    (hC : FreeChain m.free_entities m.first_free C) : i ∈ C := by
  rw [hf] at hC
  cases hC
  exact List.mem_cons_self _ _

theorem pgen_alloc {i g : Nat} {m m' : EntityManager} {e : Entity}
    (hp : PGen i g m) (ha : m.allocate? = some (m', e)) : PGen i g m' := by
  obtain ⟨gi, hgi, hge, hchain⟩ := hp
  rcases allocate?_inv ha with
    ⟨j, link, g0, hf, hfe, hg0, hm, he⟩ | ⟨hf, hm, he⟩
  · subst hm
    refine ⟨gi, hgi, hge, ?_⟩
    rintro ⟨D, hD, hiD⟩
    refine hchain ⟨j :: D, ?_, List.mem_cons_of_mem _ hiD⟩
    rw [hf]
    exact FreeChain.cons hfe hD
  · subst hm
    refine ⟨gi, ?_, hge, ?_⟩
    · show (m.generations ++ [0]).get? i = some gi
      rw [List.get?_append (List.get?_eq_some.mp hgi).1]
      exact hgi
    · rintro ⟨D, hD, hiD⟩
      cases hD
      cases hiD

theorem pgen_dealloc {i g : Nat} {m m' : EntityManager} {R : List Entity}
    {e : Entity} (hp : PGen i g m) (hinv : Inv m R) (heR : e ∈ R)
    (hd : m.deallocate? e = some m') : PGen i g m' := by
  obtain ⟨gi, hgi, hge, hchain⟩ := hp
  rcases deallocate?_inv hd with ⟨hm, _⟩ | ⟨hg, hf, hm⟩
  · subst hm
    exact ⟨gi, hgi, hge, hchain⟩
  · subst hm
    obtain ⟨hb, C, hC, hnodup, hR⟩ := hinv
    obtain ⟨g', hg', hle, hnc⟩ := hR e heR
    rw [hg] at hg'
    injection hg' with hg'
    have hnotC : e.index ∉ C := hnc hg'
    by_cases hi : i = e.index
    · subst hi
      rw [hg] at hgi
      injection hgi with hgi
      exact ⟨e.generation + 1,
        List.get?_set_eq_of_lt _ (List.get?_eq_some.mp hg).1,
        by omega, fun _ => by omega⟩
    · refine ⟨gi, ?_, hge, ?_⟩
      · rw [List.get?_set_ne _ _ (fun hh => hi hh.symm)]
        exact hgi
      · rintro ⟨D, hD, hiD⟩
        have hC' : FreeChain (m.free_entities.set e.index m.first_free)
            (some e.index) (e.index :: C) :=
          FreeChain.cons (List.get?_set_eq_of_lt _ hf)
            (freeChain_set_of_not_mem hC hnotC)
        have hDC := freeChain_unique hD hC'
        have hmem : i ∈ e.index :: C := hDC ▸ hiD
        rcases List.mem_cons.mp hmem with h1 | h1
        · exact absurd h1 hi
        · exact hchain ⟨C, hC, h1⟩

theorem pgen_legitFrom {i g : Nat} {st st' : EntityManager × List Entity}
    (hlr : LegitReach st.1 st.2) (hl : LegitFrom st st') (hp : PGen i g st.1) :
    PGen i g st'.1 := by
  induction hl with
  | refl => exact hp
  | alloc _ ha ih => exact pgen_alloc ih ha
  | dealloc hprev hmem hd ih =>
    exact pgen_dealloc ih (inv_legitReach (legitFrom_trans hlr hprev)) hmem hd

/-- Claim C3 counterexample: starting from a new allocator, the call
sequence `deallocate(Entity::new(0,0)); allocate(); allocate()` — legal
because `Entity::new` is public — makes two successive `allocate` calls
return slot 0 with the SAME generation 1, so the later generation is not
strictly greater than the earlier one. -/
theorem claim_C3_counterexample :
    runOps (EntityManager.new, []) [Op.dealloc ⟨0, 0⟩, Op.alloc, Op.alloc] =
      some (⟨[some 0], [1], some 0⟩, [⟨0, 1⟩, ⟨0, 1⟩]) ∧
    (⟨0, 1⟩ : Entity).index = (⟨0, 1⟩ : Entity).index ∧
    ¬(⟨0, 1⟩ : Entity).generation < (⟨0, 1⟩ : Entity).generation := by
  decide

/-- Claim C3 (amended): in every sequence of calls from a new allocator in
which each `deallocate` argument is a handle previously returned by
`allocate`, whenever `allocate` returns handle `e` and any later `allocate`
returns a handle `e'` with the same slot index, the later generation is
strictly greater.  (This covers successive allocations of a slot in
particular.) -/
theorem claim_C3 (m m1 m2 m3 : EntityManager) (R R2 : List Entity)
    (e e' : Entity) (h0 : LegitReach m R)
    (h1 : m.allocate? = some (m1, e))
    (h2 : LegitFrom (m1, R ++ [e]) (m2, R2))
    (h3 : m2.allocate? = some (m3, e'))
    (h4 : e'.index = e.index) :
    e.generation < e'.generation := by
  have hlr1 : LegitReach m1 (R ++ [e]) := LegitFrom.alloc h0 h1
  have hinv1 : Inv m1 (R ++ [e]) := inv_legitReach hlr1
  have hb : BInv m := (inv_legitReach h0).1
  have halive : m1.generations.get? e.index = some e.generation :=
    alive_after_alloc hb h1
  have hp1 : PGen e.index e.generation m1 := by
    refine ⟨e.generation, halive, le_refl _, ?_⟩
    rintro ⟨D, hD, hiD⟩
    obtain ⟨_, C, hC, hnodup, hRR⟩ := hinv1
    have hDC := freeChain_unique hD hC
    obtain ⟨g', hg', _, hnc⟩ :=
      hRR e (List.mem_append.mpr (Or.inr (List.mem_singleton.mpr rfl)))
    rw [halive] at hg'
    injection hg' with hg'
    exact ((hnc hg') (hDC ▸ hiD)).elim
  have hp2 : PGen e.index e.generation m2 := pgen_legitFrom hlr1 h2 hp1
  obtain ⟨gi, hgi, hge, hchain⟩ := hp2
  have hlr2 : LegitReach m2 R2 := legitFrom_trans hlr1 h2
  obtain ⟨hb2, C2, hC2, _, _⟩ := inv_legitReach hlr2
  rcases allocate?_inv h3 with
    ⟨j, link, g2, hf2, hfe2, hg2, hm3, he'⟩ | ⟨hf2, hm3, he'⟩
  · subst he'
    have h4' : j = e.index := h4
    subst h4'
    have hmem : e.index ∈ C2 := onChain_of_first_free hf2 hC2
    have hgood : e.generation + 1 ≤ gi := hchain ⟨C2, hC2, hmem⟩
    rw [hg2] at hgi
    injection hgi with hgi
    show e.generation < g2
    omega
  · subst he'
    have h4' : m2.free_entities.length = e.index := h4
    have hlt : e.index < m2.generations.length := (List.get?_eq_some.mp hgi).1
    rw [hb2.1] at hlt
    omega

theorem claim_C3_witness :
    (⟨0, 0⟩ : Entity).generation < (⟨0, 1⟩ : Entity).generation :=
  claim_C3 EntityManager.new ⟨[none], [0], none⟩ ⟨[none], [1], some 0⟩
    ⟨[none], [1], none⟩ [] [⟨0, 0⟩] ⟨0, 0⟩ ⟨0, 1⟩
    (LegitFrom.refl _) (by decide)
    (LegitFrom.dealloc (LegitFrom.refl _) (List.mem_cons_self _ _) (by decide))
    (by decide) rfl

end ECS
